import Mathlib

/-!
Verification development for the hierarchical test-explorer tree projection,
the serialized collapse-state lookup, the `/proc/net/tcp` listening-port
scanner and the extension-host tunnel map of this repository.

The projection itself (`HierarchicalByLocationProjection`) is specified by the
repository's design document and exercised by its test suite; the store, diff
applier, state propagation and renderer below are modelled from that
specification.  The collapse-state lookup, the port scanner and the tunnel map
are translated directly from the TypeScript sources.
-/

set_option maxRecDepth 4000
set_option maxHeartbeats 1600000

/-! ## Character-list string utilities

All string processing is done on `List Char` with structural recursion so
that every definition evaluates by kernel reduction. -/

abbrev Chars := List Char

/-- Split a character list on a separator character; always returns at least
one (possibly empty) group, mirroring JavaScript `String.prototype.split`. -/
def splitOnChar (sep : Char) : Chars → List Chars
  | [] => [[]]
  | c :: cs =>
    let r := splitOnChar sep cs
    if c = sep then [] :: r
    else
      match r with
      | [] => [[c]]
      | g :: gs => (c :: g) :: gs

/-- Trim leading and trailing whitespace, mirroring `String.prototype.trim`. -/
def trimChars (l : Chars) : Chars :=
  ((l.dropWhile Char.isWhitespace).reverse.dropWhile Char.isWhitespace).reverse

/-- Split a character list at every whitespace character. -/
def splitOnWsChar : Chars → List Chars
  | [] => [[]]
  | c :: cs =>
    let r := splitOnWsChar cs
    if c.isWhitespace then [] :: r
    else
      match r with
      | [] => [[c]]
      | g :: gs => (c :: g) :: gs

/-- Split a (pre-trimmed) line on runs of whitespace, mirroring
`split(/\s+/)` applied to a trimmed string. -/
def splitWsTokens (l : Chars) : List Chars :=
  (splitOnWsChar l).filter (fun t => !(t.isEmpty))

/-! ## Test identity

Modelled from the spec: a `TestId` is an ordered sequence of path segments;
it serializes to a single string joined with a reserved separator. -/

abbrev TestId := List String

/-- The reserved path separator of serialized test ids. -/
def testIdSep : Char := Char.ofNat 0

/-- Modelled from the spec: parse a serialized test id into its path
segments. -/
def parseTestId (s : String) : TestId :=
  (splitOnChar testIdSep s.toList).map (fun cs => String.mk cs)

/-! ## Result states

Modelled from the spec: enumerated result states with a "worst wins"
priority; `Unset` is the least failure-indicating state. -/

inductive TestResultState where
  | Unset
  | Skipped
  | Passed
  | Queued
  | Failed
  | Errored
  | Running
deriving DecidableEq, Repr

/-- Modelled from the spec: priority of a state; larger is "worse"
(more failure-indicating), with `Unset` lowest. -/
def statePriority : TestResultState → Nat
  | .Unset => 0
  | .Skipped => 1
  | .Passed => 2
  | .Queued => 3
  | .Failed => 4
  | .Errored => 5
  | .Running => 6

/-- Modelled from the spec: combine two states, keeping the worst. -/
def maxState (a b : TestResultState) : TestResultState :=
  if statePriority a < statePriority b then b else a

/-- Modelled from the spec: roll a node's own state together with the
computed states of its children, taking the worst. -/
def rollup (own : TestResultState) (children : List TestResultState) : TestResultState :=
  children.foldl maxState own

/-! ## Tree nodes and the node store -/

/-- Modelled from the spec: tri-state expansion mirror. -/
inductive ExpandState where
  | NotExpandable
  | Expandable
  | Expanded
deriving DecidableEq, Repr

/-- Modelled from the spec: one test or test-group, owning display
attributes, expansion state, result states and the ordered list of child
identifiers. -/
structure TestNode where
  label : String
  sortText : Option String := none
  error : Option String := none
  expand : ExpandState := .NotExpandable
  ownState : TestResultState := .Unset
  computedState : TestResultState := .Unset
  children : List TestId := []
deriving DecidableEq, Repr

/-- Modelled from the spec: the Node Store, an in-memory map from identifier
to node.  The empty identifier `[]` keys a virtual root whose children list
tracks the top-level (controller root) nodes. -/
abbrev Store := List (TestId × TestNode)

/-- Look a node up by identifier (first match). -/
def getNode : Store → TestId → Option TestNode
  | [], _ => none
  | (k, v) :: s, id => if k = id then some v else getNode s id

/-- Replace the node stored at an identifier, keeping position and keys. -/
def setNode : Store → TestId → TestNode → Store
  | [], _, _ => []
  | (k, v) :: s, id, n => (if k = id then (id, n) else (k, v)) :: setNode s id n

/-- The virtual root of an empty projection: expanded, no children. -/
def virtualRoot : TestNode :=
  { label := "", expand := .Expanded }

/-- Modelled from the spec: the store of a freshly constructed projection. -/
def emptyStore : Store := [([], virtualRoot)]

/-! ## Sort comparator

Modelled from the spec: compare `sortText` lexicographically if both
siblings define it; else compare `label` lexicographically; ties preserve
prior relative order (stable insertion after equal keys). -/

/-- Three-way lexicographic comparison of character lists (by code point). -/
def charsCmp : Chars → Chars → Ordering
  | [], [] => .eq
  | [], _ :: _ => .lt
  | _ :: _, [] => .gt
  | a :: as, b :: bs =>
    if a.toNat < b.toNat then .lt
    else if b.toNat < a.toNat then .gt
    else charsCmp as bs

/-- Three-way lexicographic comparison of strings. -/
def strCmp (a b : String) : Ordering :=
  charsCmp a.toList b.toList

/-- Modelled from the spec: the sibling sort comparator. -/
def cmpNodes (a b : TestNode) : Ordering :=
  match a.sortText, b.sortText with
  | some x, some y => strCmp x y
  | _, _ => strCmp a.label b.label

/-- The non-strict sibling order: `a` may stay before `b`. -/
def sortLe (a b : TestNode) : Prop := cmpNodes a b ≠ .gt

/-- Consecutive sortedness of a list of nodes under the sibling comparator. -/
def chainLe : List TestNode → Prop
  | [] => True
  | [_] => True
  | a :: b :: r => sortLe a b ∧ chainLe (b :: r)

/-- Stable sorted insertion of a node into a list of nodes: the new node is
placed before the first strictly greater element, after equal keys. -/
def insertNodeSorted (n : TestNode) : List TestNode → List TestNode
  | [] => [n]
  | x :: xs => if cmpNodes n x = .lt then n :: x :: xs else x :: insertNodeSorted n xs

/-- Modelled from the spec: insert an identifier into a sibling list at the
sort-correct position, looking sibling nodes up in the store; identifiers
without a stored node are skipped while scanning. -/
def insertSorted (s : Store) (n : TestNode) (id : TestId) : List TestId → List TestId
  | [] => [id]
  | x :: xs =>
    match getNode s x with
    | some xn => if cmpNodes n xn = .lt then id :: x :: xs else x :: insertSorted s n id xs
    | none => x :: insertSorted s n id xs

/-- The nodes referenced by a list of identifiers, dropping identifiers with
no stored node. -/
def childNodes (s : Store) (ids : List TestId) : List TestNode :=
  ids.filterMap (getNode s)

/-! ## Diff operations and the diff applier -/

/-- Modelled from the spec: a partial attribute update; an outer `none`
means the key is absent from the patch, `some v` sets the attribute to
`v` (so `some none` clears an optional attribute). -/
structure NodePatch where
  label : Option String := none
  sortText : Option (Option String) := none
  error : Option (Option String) := none
deriving DecidableEq, Repr

/-- Apply a patch to a node's display attributes. -/
def applyPatch (n : TestNode) (p : NodePatch) : TestNode :=
  { n with
    label := p.label.getD n.label
    sortText := p.sortText.getD n.sortText
    error := p.error.getD n.error }

/-- Modelled from the spec: tagged diff operations. -/
inductive TestDiffOp where
  | add (id : TestId) (expand : ExpandState) (label : String) (sortText : Option String)
  | update (id : TestId) (patch : NodePatch)
  | remove (id : TestId)
deriving DecidableEq, Repr

/-- Modelled from the spec: `Add` creates the node and inserts its id into
the parent's children at the sort-correct position; a diff referencing an
unknown parent is a silent no-op; an `Add` for an existing id updates its
attributes in place (upsert). -/
def applyAdd (s : Store) (id : TestId) (ex : ExpandState) (lab : String)
    (st : Option String) : Store :=
  let parent := id.dropLast
  match getNode s parent with
  | none => s
  | some pn =>
    match getNode s id with
    | some old => setNode s id { old with label := lab, sortText := st, expand := ex }
    | none =>
      let n : TestNode := { label := lab, sortText := st, expand := ex }
      let s1 := s ++ [(id, n)]
      setNode s1 parent { pn with children := insertSorted s1 n id pn.children }

/-- Modelled from the spec: `Update` mutates attributes; if the sort key
(`sortText` or `label`) changed, the node is removed from its sibling
position and reinserted at the sort-correct position.  An update for an
unknown id is a silent no-op. -/
def applyUpdate (s : Store) (id : TestId) (p : NodePatch) : Store :=
  match getNode s id with
  | none => s
  | some n =>
    let n1 := applyPatch n p
    let s1 := setNode s id n1
    if n1.label = n.label ∧ n1.sortText = n.sortText then s1
    else
      let parent := id.dropLast
      match getNode s1 parent with
      | none => s1
      | some pn =>
        let sibs := pn.children.filter (fun x => x ≠ id)
        setNode s1 parent { pn with children := insertSorted s1 n1 id sibs }

/-- Modelled from the spec: `Remove` deletes the node and all descendants
(identifier-prefix extensions), removes the id from its parent's children
and clears the parent's expandable flag if it became childless.  A remove
for an unknown id is a silent no-op. -/
def applyRemove (s : Store) (id : TestId) : Store :=
  match getNode s id with
  | none => s
  | some _ =>
    let s1 := s.filter (fun e => !(id.isPrefixOf e.1))
    let parent := id.dropLast
    match getNode s1 parent with
    | none => s1
    | some pn =>
      let kids := pn.children.filter (fun x => x ≠ id)
      setNode s1 parent
        { pn with children := kids
                  expand := if kids.isEmpty then .NotExpandable else pn.expand }

/-- Apply one diff operation to the store. -/
def applyOp (s : Store) : TestDiffOp → Store
  | .add id ex lab st => applyAdd s id ex lab st
  | .update id p => applyUpdate s id p
  | .remove id => applyRemove s id

/-- Apply a sequence of diff operations left to right. -/
def applyOps (s : Store) (ops : List TestDiffOp) : Store :=
  ops.foldl applyOp s

def isAddOp : TestDiffOp → Bool
  | .add _ _ _ _ => true
  | _ => false

def isUpdateOp : TestDiffOp → Bool
  | .update _ _ => true
  | _ => false

def isRemoveOp : TestDiffOp → Bool
  | .remove _ => true
  | _ => false

/-- Modelled from the spec: a batch is applied atomically, processing all
`Add` operations first, then all `Update`s, then all `Remove`s. -/
def applyBatch (s : Store) (ops : List TestDiffOp) : Store :=
  applyOps s (ops.filter isAddOp ++ ops.filter isUpdateOp ++ ops.filter isRemoveOp)

/-! ## State propagation

Modelled from the spec: a state notification updates the target node's own
and computed state, then walks ancestors recomputing each ancestor's
computed state as the rollup of its own last observed state and its
children's computed states, stopping early once a recomputation changes
nothing.  Because `Unset` has the lowest priority, a node whose children
have all reverted to `Unset` rolls up to its own last observed state. -/

/-- The computed state rendered for an identifier (`Unset` if absent). -/
def computedOf (s : Store) (id : TestId) : TestResultState :=
  ((getNode s id).map TestNode.computedState).getD .Unset

/-- Recompute a node's computed state from its own state and its children. -/
def recompute (s : Store) (n : TestNode) : TestResultState :=
  rollup n.ownState (n.children.map (fun c => computedOf s c))

/-- All proper ancestors of an identifier, nearest first, ending with the
virtual root `[]`. -/
def ancestorsOf (id : TestId) : List TestId :=
  (List.range id.length).reverse.map (fun k => id.take k)

/-- Walk an ancestor chain, recomputing computed states and stopping early
once an ancestor's computed state is unchanged. -/
def walkUp : Store → List TestId → Store
  | s, [] => s
  | s, a :: rest =>
    match getNode s a with
    | none => s
    | some n =>
      let c := recompute s n
      if c = n.computedState then s
      else walkUp (setNode s a { n with computedState := c }) rest

/-- Modelled from the spec: handle an external state-change notification
carrying the item's new own and computed states.  A notification for an
unknown id is ignored.  An explicit non-`Unset` computed state is taken as
is; a reversion to `Unset` falls back to the rollup of the node's own state
and its children. -/
def notifyState (s : Store) (id : TestId) (newOwn newComputed : TestResultState) : Store :=
  match getNode s id with
  | none => s
  | some n =>
    let n1 := { n with ownState := newOwn }
    let c := if newComputed = .Unset then recompute s n1 else newComputed
    let s1 := setNode s id { n1 with computedState := c }
    walkUp s1 (ancestorsOf id)

/-- Record a node's own last directly observed state. -/
def setOwnState (s : Store) (id : TestId) (st : TestResultState) : Store :=
  match getNode s id with
  | none => s
  | some n => setNode s id { n with ownState := st }

/-- Drive a node's expansion state, as the host UI does on expand/collapse. -/
def setExpand (s : Store) (id : TestId) (e : ExpandState) : Store :=
  match getNode s id with
  | none => s
  | some n => setNode s id { n with expand := e }

/-! ## Rendering -/

/-- A rendered tree node: displayed label, displayed state and rendered
children. -/
inductive RenderedNode where
  | mk (e : String) (data : TestResultState) (children : List RenderedNode)

def RenderedNode.e : RenderedNode → String
  | .mk e _ _ => e

def RenderedNode.data : RenderedNode → TestResultState
  | .mk _ d _ => d

def RenderedNode.childList : RenderedNode → List RenderedNode
  | .mk _ _ c => c

/-- Modelled from the spec: the synthetic error leaf rendered for a node
with a non-empty `error` attribute, always sorted before all real
children; it exists only in the rendered projection. -/
def errorChildren (n : TestNode) : List RenderedNode :=
  match n.error with
  | some e => [.mk e .Unset []]
  | none => []

/-- Modelled from the spec: render the subtree below an identifier.  A node
that is not expanded renders no children; an expanded node renders its
synthetic error leaf first, then its real children in stored order. -/
def renderNode (s : Store) : Nat → TestId → Option RenderedNode
  | 0, id =>
    (getNode s id).map (fun n => .mk n.label n.computedState [])
  | fuel + 1, id =>
    (getNode s id).map (fun n =>
      .mk n.label n.computedState
        (if n.expand = .Expanded then
          errorChildren n ++ n.children.filterMap (renderNode s fuel)
        else []))

/-- Modelled from the spec: the rendered top level.  With a single root
controller the root group is hidden and its children are the top level;
with several, the controller roots themselves are rendered. -/
def renderTop (s : Store) : List RenderedNode :=
  match getNode s [] with
  | none => []
  | some vr =>
    match vr.children with
    | [c] =>
      match renderNode s s.length c with
      | some r => r.childList
      | none => []
    | cs => cs.filterMap (renderNode s s.length)

/-- Modelled from the spec: look the tree element up for a serialized
identifier; only identifiers present in the Node Store resolve. -/
def getElementByTestId (s : Store) (idStr : String) : Option TestNode :=
  getNode s (parseTestId idStr)

/-- Modelled from the spec: the projection's externally visible state — the
node store plus the pending, not yet flushed diff operations. -/
structure ProjState where
  store : Store
  pending : List TestDiffOp
deriving DecidableEq, Repr

/-- Queue a batch of diff operations without rendering. -/
def pushDiff (p : ProjState) (ops : List TestDiffOp) : ProjState :=
  { p with pending := p.pending ++ ops }

/-- Modelled from the spec: flush applies every pending operation
atomically and then invokes the projection bridge exactly once, producing a
single rendered tree. -/
def flush (p : ProjState) : List (List RenderedNode) × ProjState :=
  let s1 := applyBatch p.store p.pending
  ([renderTop s1], ⟨s1, []⟩)

/-! ## Test fixture

The tree of the projection test suite: a single controller `ctrlId` whose
root group `root` has children `a` (with collapsed children `aa`, `ab`)
and `b`. -/

def idRoot : TestId := ["ctrlId"]
def idA : TestId := ["ctrlId", "id-a"]
def idB : TestId := ["ctrlId", "id-b"]
def idAA : TestId := ["ctrlId", "id-a", "id-aa"]
def idAB : TestId := ["ctrlId", "id-a", "id-ab"]
def idC : TestId := ["ctrlId2"]
def idCA : TestId := ["ctrlId2", "id-c"]

def initialOps : List TestDiffOp :=
  [ .add idRoot .Expanded "root" none
  , .add idA .Expandable "a" none
  , .add idB .NotExpandable "b" none
  , .add idAA .NotExpandable "aa" none
  , .add idAB .NotExpandable "ab" none ]

/-- The store after the initial flush of the fixture tree. -/
def store0 : Store := applyOps emptyStore initialOps

/-- The fixture store after the host expands node `a`. -/
def store0x : Store := setExpand store0 idA .Expanded


/-! ## Serialized collapse state

Translated from the source: `ISerializedTestTreeCollapseState` and
`isCollapsedInSerializedTestTree`. -/

/-- `ISerializedTestTreeCollapseState`: an optional collapsed flag and an
optional map from local path segment to nested state. -/
inductive SerializedCollapse where
  | mk (collapsed : Option Bool) (children : Option (List (String × SerializedCollapse)))

def SerializedCollapse.collapsedVal : SerializedCollapse → Option Bool
  | .mk c _ => c

def SerializedCollapse.childrenVal :
    SerializedCollapse → Option (List (String × SerializedCollapse))
  | .mk _ ch => ch

def childLookupList : List (String × SerializedCollapse) → String → Option SerializedCollapse
  | [], _ => none
  | (k, v) :: r, p => if k = p then some v else childLookupList r p

/-- Child lookup through the optional children map: absent map or absent
key both yield `none` (the `hasOwnProperty` guard of the source). -/
def childLookup (n : SerializedCollapse) (p : String) : Option SerializedCollapse :=
  match n.childrenVal with
  | none => none
  | some l => childLookupList l p

/-- Translated from the source: the loop of `isCollapsedInSerializedTestTree`,
returning `undefined` as soon as a path segment is absent and the reached
node's `collapsed` value at the end. -/
def isCollapsedLoop : SerializedCollapse → List String → Option Bool
  | node, [] => node.collapsedVal
  | node, part :: rest =>
    match childLookup node part with
    | none => none
    | some c => isCollapsedLoop c rest

/-- The id argument of `isCollapsedInSerializedTestTree`: either an already
parsed `TestId` or a serialized string, which is parsed. -/
def inputPath : TestId ⊕ String → TestId
  | .inl t => t
  | .inr s => parseTestId s

/-- Translated from the source: `isCollapsedInSerializedTestTree`. -/
def isCollapsedInSerializedTestTree (ser : SerializedCollapse) (id : TestId ⊕ String) :
    Option Bool :=
  isCollapsedLoop ser (inputPath id)

/-- The claim's description of the walk: follow the path segments through
the nested children maps, failing as soon as a segment is absent. -/
def collapseWalk : SerializedCollapse → List String → Option SerializedCollapse
  | node, [] => some node
  | node, p :: rest =>
    match childLookup node p with
    | none => none
    | some c => collapseWalk c rest

/-! ## Listening-port scanner

Translated from the source: `loadConnectionTable`, `loadListeningPorts`
and the `parseInt` calls of `ExtHostTunnelService`.  Rows are association
lists from column name to cell text; `parseInt` is modelled as leading
digit parsing in the given radix, with `none` standing for `NaN`. -/

/-- JavaScript digit value of a character (`0-9`, `a-z`, `A-Z`). -/
def digitVal (c : Char) : Option Nat :=
  if '0' ≤ c ∧ c ≤ '9' then some (c.toNat - 48)
  else if 'a' ≤ c ∧ c ≤ 'z' then some (c.toNat - 87)
  else if 'A' ≤ c ∧ c ≤ 'Z' then some (c.toNat - 55)
  else none

def isRadixDigit (radix : Nat) (c : Char) : Bool :=
  match digitVal c with
  | some v => decide (v < radix)
  | none => false

/-- `parseInt(text, radix)` on well-formed table cells: parse the leading
run of digits valid in the radix; no digits parse to `none` (`NaN`). -/
def parseIntRadix (radix : Nat) (l : Chars) : Option Nat :=
  let ds := l.takeWhile (isRadixDigit radix)
  if ds.isEmpty then none
  else some (ds.foldl (fun a c => a * radix + (digitVal c).getD 0) 0)

abbrev Row := List (Chars × Chars)

def rowGet : Row → Chars → Option Chars
  | [], _ => none
  | (k, v) :: r, k0 => if k = k0 then some v else rowGet r k0

/-- JavaScript object property assignment: overwrite in place when the key
exists, else append. -/
def setKeyRow (r : Row) (k v : Chars) : Row :=
  if r.any (fun e => e.1 == k) then r.map (fun e => if e.1 = k then (k, v) else e)
  else r ++ [(k, v)]

/-- Fuelled decimal digit expansion of a natural number. -/
def natDigitsAux : Nat → Nat → Chars
  | 0, _ => []
  | f + 1, n =>
    if n < 10 then [Char.ofNat (48 + n)]
    else natDigitsAux f (n / 10) ++ [Char.ofNat (48 + n % 10)]

/-- Decimal digits of a natural number (for the `names[i] || i` fallback
key of the source's column mapping). -/
def natToChars (n : Nat) : Chars :=
  natDigitsAux (n + 1) n

/-- Translated from the source: split the output into lines, take the
header's column names dropping `rx_queue` and `tm->when` (they share data
columns with their neighbours), then map each remaining line to a row
object keyed by column name, falling back to the column index. -/
def loadConnectionTable (stdout : String) : List Row :=
  match splitOnChar '\n' (trimChars stdout.toList) with
  | [] => []
  | header :: rest =>
    let names := (splitWsTokens (trimChars header)).filter
      (fun nm => !(nm == "rx_queue".toList || nm == ("tm->when".toList)))
    rest.map (fun line =>
      ((splitWsTokens (trimChars line)).enum.foldl
        (fun obj iv => setKeyRow obj ((names.get? iv.1).getD (natToChars iv.1)) iv.2) []))

/-- One entry of the scanner's result: inode-parsed socket, address text and
hex-parsed port (`none` models `NaN`). -/
structure PortEntry where
  socket : Option Nat
  ip : Chars
  port : Option Nat
deriving DecidableEq, Repr

/-- Translated from the source: build one entry from a row — the socket is
`parseInt(row.inode, 10)`, the ip the first and the port the base-16 parse
of the second colon-separated component of `local_address`. -/
def entryOfRow (r : Row) : PortEntry :=
  let address := splitOnChar ':' ((rowGet r ("local_address".toList)).getD [])
  { socket := parseIntRadix 10 ((rowGet r ("inode".toList)).getD [])
  , ip := (address.get? 0).getD []
  , port := (address.get? 1).bind (parseIntRadix 16) }

/-- The concatenated tables of all outputs. -/
def tableOf (stdouts : List String) : List Row :=
  (stdouts.map loadConnectionTable).flatten

/-- The rows of listening sockets: those whose `st` column is `0A`. -/
def listeningRows (stdouts : List String) : List Row :=
  (tableOf stdouts).filter (fun r => decide (rowGet r ("st".toList) = some ("0A".toList)))

/-- JavaScript `Map` keyed by port: re-setting an existing key keeps its
position and replaces its value; a new key is appended. -/
def insertJsMap (m : List (Option Nat × PortEntry)) (k : Option Nat) (v : PortEntry) :
    List (Option Nat × PortEntry) :=
  if m.any (fun e => decide (e.1 = k)) then m.map (fun e => if e.1 = k then (k, v) else e)
  else m ++ [(k, v)]

def buildJsMap (pairs : List (Option Nat × PortEntry)) : List (Option Nat × PortEntry) :=
  pairs.foldl (fun m p => insertJsMap m p.1 p.2) []

/-- Translated from the source: `loadListeningPorts` — concatenate the
parsed tables, keep `st = '0A'` rows, build entries and deduplicate by port
through a JavaScript `Map`, returning its values. -/
def loadListeningPorts (stdouts : List String) : List PortEntry :=
  let entries := (listeningRows stdouts).map entryOfRow
  (buildJsMap (entries.map (fun p => (p.port, p)))).map (fun e => e.2)

/-- First entry with the given port, used to state the per-port dedup
behaviour. -/
def findByPort : List PortEntry → Option Nat → Option PortEntry
  | [], _ => none
  | p :: ps, k => if p.port = k then some p else findByPort ps k

def lookupJsMap : List (Option Nat × PortEntry) → Option Nat → Option PortEntry
  | [], _ => none
  | (k0, v) :: m, k => if k0 = k then some v else lookupJsMap m k

/-- Left-biased choice of optional entries, used to state lookup over
concatenations. -/
def optOr (a b : Option PortEntry) : Option PortEntry :=
  match a with
  | some v => some v
  | none => b

/-! ## Extension-host tunnel map

Translated from the source: `$closeTunnel` over the
`_extensionTunnels : Map<string, Map<number, Tunnel>>` state.  A tunnel is
identified by an abstract id; `closeTunnel` returns the updated map
together with the list of tunnels it disposed. -/

structure TunnelRec where
  tid : Nat
deriving DecidableEq, Repr

abbrev PortMap := List (Nat × TunnelRec)

abbrev HostMap := List (String × PortMap)

def pmGet : PortMap → Nat → Option TunnelRec
  | [], _ => none
  | (p, t) :: m, port => if p = port then some t else pmGet m port

def hmGet : HostMap → String → Option PortMap
  | [], _ => none
  | (h, pm) :: m, host => if h = host then some pm else hmGet m host

def pmDelete (pm : PortMap) (port : Nat) : PortMap :=
  pm.filter (fun e => !decide (e.1 = port))

def hmSet (hm : HostMap) (host : String) (v : PortMap) : HostMap :=
  hm.map (fun e => if e.1 = host then (host, v) else e)

/-- Translated from the source: `$closeTunnel({host, port})` — when the
host map exists and holds the port, dispose that tunnel and delete the
port entry; otherwise do nothing. -/
def closeTunnel (hm : HostMap) (host : String) (port : Nat) : HostMap × List TunnelRec :=
  match hmGet hm host with
  | none => (hm, [])
  | some pm =>
    match pmGet pm port with
    | none => (hm, [])
    | some t => (hmSet hm host (pmDelete pm port), [t])

/-! ## Claim fixtures

Concrete stores and inputs exercising the scenarios of the specification. -/

/-- The fixture after the resort batch: `aa` gets sortText `"z"`, `ab` gets
sortText `"a"`. -/
def c1store : Store := applyBatch store0x
  [ .update idAA { sortText := some (some "z") }
  , .update idAB { sortText := some (some "a") } ]

/-- The fixture with the root group's own state last observed as `Queued`. -/
def c2store : Store := setOwnState store0 idRoot .Queued

/-- After a notification moving leaf `aa` to `Failed`. -/
def c2phase1 : Store := notifyState c2store idAA .Failed .Failed

/-- After a subsequent notification reverting leaf `aa` to `Unset`. -/
def c2phase2 : Store := notifyState c2phase1 idAA .Unset .Unset

/-- The expanded fixture after an update setting `a.error := "bad"`. -/
def c3err1 : Store := applyBatch store0x [ .update idA { error := some (some "bad") } ]

/-- ... after a further update changing the error text to `"badder"`. -/
def c3err2 : Store := applyBatch c3err1 [ .update idA { error := some (some "badder") } ]

/-- ... after an update clearing the error. -/
def c3err3 : Store := applyBatch c3err2 [ .update idA { error := some none } ]

/-- The collapsed fixture after an update setting `a.error := "bad"` while
`a` is not expanded. -/
def c6hidden : Store := applyBatch store0 [ .update idA { error := some (some "bad") } ]

/-- A small node used by witnesses. -/
def nodeW : TestNode := { label := "w", ownState := .Queued }

/-- The node stored for `a` in the initial fixture store. -/
def nodeA : TestNode := { label := "a", expand := .Expandable, children := [idAA, idAB] }

/-- A small expanded node carrying an error, used by witnesses. -/
def nodeErr : TestNode := { label := "a", expand := .Expanded, error := some "bad" }

/-- A miniature `/proc/net/tcp` output: two listening rows sharing port
`0x16` (the later wins) and one non-listening row. -/
def sampleTcp : String :=
  "  sl local_address rem_address st tx_queue rx_queue tr tm->when retrnsmt uid timeout inode\n 0: 0100007F:0016 00000000:0000 0A 00000000:00000000 00:00000000 00000000 0 0 12345\n 1: 0100007F:0050 00000000:0000 01 00000000:00000000 00:00000000 00000000 0 0 23456\n 2: 00000000:0016 00000000:0000 0A 00000000:00000000 00:00000000 00000000 0 0 34567"

/-- The single surviving entry of `loadListeningPorts [sampleTcp]`. -/
def sampleEntry : PortEntry :=
  { socket := some 34567, ip := "00000000".toList, port := some 22 }

/-- A small tunnel map used by witnesses. -/
def hmW : HostMap := [("localhost", [(80, ⟨1⟩), (443, ⟨2⟩)]), ("other", [(80, ⟨3⟩)])]

/-- A small serialized collapse tree. -/
def serW : SerializedCollapse :=
  .mk none (some [("ctrlId", .mk (some true) (some [("id-a", .mk (some false) none)]))])

/-! ## Comparator and sorted-insertion lemmas -/

theorem charsCmp_swap : ∀ a b : Chars, charsCmp a b = (charsCmp b a).swap := by
  intro a
  induction a with
  | nil => intro b; cases b <;> rfl
  | cons x xs ih =>
    intro b
    cases b with
    | nil => rfl
    | cons y ys =>
      simp only [charsCmp]
      by_cases h1 : x.toNat < y.toNat
      · have h2 : ¬ y.toNat < x.toNat := Nat.lt_asymm h1
        simp [h1, h2, Ordering.swap]
      · by_cases h2 : y.toNat < x.toNat
        · simp [h1, h2, Ordering.swap]
        · simp [h1, h2, ih ys]

theorem strCmp_swap (a b : String) : strCmp a b = (strCmp b a).swap :=
  charsCmp_swap a.toList b.toList

theorem cmpNodes_swap (a b : TestNode) : cmpNodes a b = (cmpNodes b a).swap := by
  unfold cmpNodes
  cases a.sortText <;> cases b.sortText <;> exact strCmp_swap _ _

theorem sortLe_of_lt {n x : TestNode} (h : cmpNodes n x = .lt) : sortLe n x := by
  unfold sortLe
  rw [h]
  simp

theorem sortLe_of_not_lt {n x : TestNode} (h : ¬ cmpNodes n x = .lt) : sortLe x n := by
  unfold sortLe
  rw [cmpNodes_swap]
  cases hc : cmpNodes n x <;> simp_all [Ordering.swap]

theorem chainLe_tail {a : TestNode} {l : List TestNode} (h : chainLe (a :: l)) :
    chainLe l := by
  cases l with
  | nil => trivial
  | cons b r => exact h.2

theorem chainLe_insert_cons (n : TestNode) :
    ∀ (l : List TestNode) (z : TestNode), chainLe (z :: l) → sortLe z n →
      chainLe (z :: insertNodeSorted n l) := by
  intro l
  induction l with
  | nil => intro z _ hzn; exact ⟨hzn, trivial⟩
  | cons y ys ih =>
    intro z hz hzn
    unfold insertNodeSorted
    by_cases hc : cmpNodes n y = .lt
    · rw [if_pos hc]
      exact ⟨hzn, sortLe_of_lt hc, hz.2⟩
    · rw [if_neg hc]
      exact ⟨hz.1, ih y hz.2 (sortLe_of_not_lt hc)⟩

theorem chainLe_insertNodeSorted (n : TestNode) :
    ∀ l, chainLe l → chainLe (insertNodeSorted n l) := by
  intro l hl
  cases l with
  | nil => trivial
  | cons x xs =>
    unfold insertNodeSorted
    by_cases hc : cmpNodes n x = .lt
    · rw [if_pos hc]
      exact ⟨sortLe_of_lt hc, hl⟩
    · rw [if_neg hc]
      exact chainLe_insert_cons n xs x hl (sortLe_of_not_lt hc)

theorem childNodes_congr (s s' : Store) :
    ∀ l, (∀ x ∈ l, getNode s' x = getNode s x) → childNodes s' l = childNodes s l := by
  intro l
  induction l with
  | nil => intro _; rfl
  | cons x xs ih =>
    intro h
    have hx : getNode s' x = getNode s x := h x (by simp)
    have hxs : childNodes s' xs = childNodes s xs :=
      ih (fun y hy => h y (by simp [hy]))
    simp only [childNodes, List.filterMap_cons] at hxs ⊢
    rw [hx, hxs]

theorem childNodes_insertSorted (s s' : Store) (n : TestNode) (id : TestId) :
    ∀ sibs, id ∉ sibs → getNode s' id = some n →
      (∀ x ∈ sibs, getNode s' x = getNode s x) →
      childNodes s' (insertSorted s n id sibs) = insertNodeSorted n (childNodes s sibs) := by
  intro sibs
  induction sibs with
  | nil =>
    intro _ hs' _
    simp [insertSorted, insertNodeSorted, childNodes, hs']
  | cons x xs ih =>
    intro hid hs' hkeep
    have hidx : id ∉ xs := fun hmem => hid (by simp [hmem])
    have hx : getNode s' x = getNode s x := hkeep x (by simp)
    have hkxs : ∀ y ∈ xs, getNode s' y = getNode s y := fun y hy => hkeep y (by simp [hy])
    have hrec := ih hidx hs' hkxs
    have hcong := childNodes_congr s s' xs hkxs
    simp only [childNodes] at hrec hcong ⊢
    cases hgx : getNode s x with
    | none =>
      simp only [insertSorted, hgx, List.filterMap_cons, hx, hrec]
    | some xn =>
      by_cases hc : cmpNodes n xn = .lt
      · simp only [insertSorted, hgx, if_pos hc, List.filterMap_cons, hs', hx,
          insertNodeSorted, hcong]
      · simp only [insertSorted, hgx, if_neg hc, List.filterMap_cons, hx, hrec,
          insertNodeSorted]

/-! ## Rollup lemmas -/

theorem maxState_unset (a : TestResultState) : maxState a .Unset = a := by
  unfold maxState statePriority
  simp

theorem rollup_all_unset :
    ∀ (l : List TestResultState) (own : TestResultState),
      (∀ x ∈ l, x = .Unset) → rollup own l = own := by
  intro l
  induction l with
  | nil => intro own _; rfl
  | cons x xs ih =>
    intro own h
    have hx : x = .Unset := h x (by simp)
    have hxs : ∀ y ∈ xs, y = .Unset := fun y hy => h y (by simp [hy])
    simp only [rollup, List.foldl_cons, hx, maxState_unset]
    exact ih own hxs

/-! ## Claim theorems -/

/-- C1: sibling order is maintained by the sort comparator — sorted
insertion (both at the node level reached after store lookups and through
`insertSorted` as invoked by the diff applier) preserves consecutive
sortedness of a sibling list, and the resort scenario holds: updating `aa`
to sortText `"z"` and `ab` to sortText `"a"` reorders the rendered children
of `a` to `[ab, aa]` in the next flush. -/
theorem c1_sort_order_and_resort :
    (∀ (s s' : Store) (n : TestNode) (id : TestId) (sibs : List TestId),
        id ∉ sibs → getNode s' id = some n →
        (∀ x ∈ sibs, getNode s' x = getNode s x) →
        chainLe (childNodes s sibs) →
        chainLe (childNodes s' (insertSorted s n id sibs))) ∧
      renderTop c1store =
        [.mk "a" .Unset [.mk "ab" .Unset [], .mk "aa" .Unset []], .mk "b" .Unset []] := by
  constructor
  · intro s s' n id sibs hid hs' hkeep hch
    rw [childNodes_insertSorted s s' n id sibs hid hs' hkeep]
    exact chainLe_insertNodeSorted n (childNodes s sibs) hch
  · rfl

theorem c1_sort_order_and_resort_witness :
    chainLe (childNodes [(idA, nodeW)] (insertSorted [] nodeW idA [])) :=
  c1_sort_order_and_resort.1 [] [(idA, nodeW)] nodeW idA []
    (by simp) (by decide) (by simp) trivial

/-- C2: a notification moving leaf `aa` to `Failed` propagates `Failed` to
the computed state of every visible ancestor; a subsequent notification
reverting the leaf to `Unset` restores each affected node's computed state
to its own last directly observed state — in general, a node all of whose
children's computed states are `Unset` recomputes to exactly its own state
(`Unset` only when the own state was also `Unset`). -/
theorem c2_failed_propagation_and_unset_fallback :
    (∀ (s : Store) (n : TestNode),
        (∀ c ∈ n.children, computedOf s c = .Unset) → recompute s n = n.ownState) ∧
      (computedOf c2phase1 idAA = .Failed ∧ computedOf c2phase1 idA = .Failed ∧
        computedOf c2phase1 idRoot = .Failed ∧
        computedOf c2phase2 idAA = .Unset ∧ computedOf c2phase2 idA = .Unset ∧
        computedOf c2phase2 idRoot = .Queued) := by
  constructor
  · intro s n h
    unfold recompute
    refine rollup_all_unset _ _ ?_
    intro x hx
    rcases List.mem_map.mp hx with ⟨c, hc, rfl⟩
    exact h c hc
  · exact ⟨by decide, by decide, by decide, by decide, by decide, by decide⟩

theorem c2_failed_propagation_and_unset_fallback_witness :
    recompute [] nodeW = nodeW.ownState :=
  c2_failed_propagation_and_unset_fallback.1 [] nodeW (by simp [nodeW])

/-! ## Node store lemmas -/

theorem getNode_setNode_self :
    ∀ (s : Store) (id : TestId) (n n' : TestNode), getNode s id = some n →
      getNode (setNode s id n') id = some n' := by
  intro s id n n'
  induction s with
  | nil => intro h; exact absurd h (by simp [getNode])
  | cons e rest ih =>
    obtain ⟨k, v⟩ := e
    intro h
    simp only [setNode]
    by_cases hk : k = id
    · rw [if_pos hk]
      simp [getNode]
    · rw [if_neg hk]
      simp only [getNode, if_neg hk] at h ⊢
      exact ih h

theorem getNode_setNode_ne :
    ∀ (s : Store) (id j : TestId) (n' : TestNode), j ≠ id →
      getNode (setNode s id n') j = getNode s j := by
  intro s id j n' hne
  induction s with
  | nil => rfl
  | cons e rest ih =>
    obtain ⟨k, v⟩ := e
    simp only [setNode]
    by_cases hk : k = id
    · rw [if_pos hk]
      subst hk
      simp only [getNode]
      rw [if_neg (fun hij => hne (Eq.symm hij)), if_neg (fun hij => hne (Eq.symm hij))]
      exact ih
    · rw [if_neg hk]
      simp only [getNode]
      by_cases hkj : k = j
      · rw [if_pos hkj, if_pos hkj]
      · rw [if_neg hkj, if_neg hkj]
        exact ih

theorem getNode_setNode_none :
    ∀ (s : Store) (k j : TestId) (n : TestNode), getNode s j = none →
      getNode (setNode s k n) j = none := by
  intro s k j n
  induction s with
  | nil => intro _; rfl
  | cons e rest ih =>
    obtain ⟨x, v⟩ := e
    intro h
    simp only [getNode] at h
    by_cases hxj : x = j
    · rw [if_pos hxj] at h
      cases h
    · rw [if_neg hxj] at h
      simp only [setNode]
      by_cases hxk : x = k
      · rw [if_pos hxk]
        simp only [getNode]
        rw [if_neg (fun hkj => hxj (hxk.trans hkj))]
        exact ih h
      · rw [if_neg hxk]
        simp only [getNode]
        rw [if_neg hxj]
        exact ih h

theorem getNode_setNode_isSome (s : Store) (id j : TestId) (n' : TestNode) :
    (getNode (setNode s id n') j).isSome = (getNode s j).isSome := by
  cases h : getNode s j with
  | none => rw [getNode_setNode_none s id j n' h]
  | some v =>
    by_cases hj : j = id
    · subst hj
      rw [getNode_setNode_self s j v n' h]
      rfl
    · rw [getNode_setNode_ne s id j n' hj, h]

theorem keys_setNode :
    ∀ (s : Store) (id : TestId) (n' : TestNode),
      (setNode s id n').map (fun e => e.1) = s.map (fun e => e.1) := by
  intro s id n'
  induction s with
  | nil => rfl
  | cons e rest ih =>
    obtain ⟨k, v⟩ := e
    simp only [setNode, List.map_cons]
    by_cases hk : k = id
    · rw [if_pos hk]
      simp [hk, ih]
    · rw [if_neg hk]
      simp [ih]

theorem length_setNode :
    ∀ (s : Store) (id : TestId) (n' : TestNode), (setNode s id n').length = s.length := by
  intro s id n'
  induction s with
  | nil => rfl
  | cons e rest ih => simp only [setNode, List.length_cons, ih]

theorem getNode_filter_not_kept (s : Store) (id j : TestId)
    (hpre : id.isPrefixOf j = true) :
    getNode (s.filter (fun e => !(id.isPrefixOf e.1))) j = none := by
  induction s with
  | nil => rfl
  | cons e rest ih =>
    obtain ⟨k, v⟩ := e
    simp only [List.filter_cons]
    by_cases hkeep : id.isPrefixOf k = true
    · simp only [hkeep]
      simpa using ih
    · have hb : (!(id.isPrefixOf k)) = true := by simp [hkeep]
      simp only [hb, if_pos]
      by_cases hkj : k = j
      · exact absurd (hkj ▸ hpre) hkeep
      · simp only [getNode, if_neg hkj]
        exact ih

/-! ## Claims C4 and C7 -/

/-- C4: applying a Remove diff for a stored node removes that node and all
of its descendants (identifier-prefix extensions) from the Node Store, and
in the expanded fixture deleting `ab` renders `[{a, children: [aa]}, {b}]`. -/
theorem c4_remove_deletes_subtree :
    (∀ (s : Store) (id id' : TestId) (n : TestNode),
        getNode s id = some n → id.isPrefixOf id' = true →
        getNode (applyRemove s id) id' = none) ∧
      renderTop (applyOp store0x (.remove idAB)) =
        [.mk "a" .Unset [.mk "aa" .Unset []], .mk "b" .Unset []] := by
  constructor
  · intro s id id' n hid hpre
    have h1 : getNode (s.filter (fun e => !(id.isPrefixOf e.1))) id' = none :=
      getNode_filter_not_kept s id id' hpre
    simp only [applyRemove, hid]
    cases hp : getNode (s.filter (fun e => !(id.isPrefixOf e.1))) id.dropLast with
    | none => exact h1
    | some pn =>
      have hne : id' ≠ id.dropLast := by
        intro he
        rw [he] at h1
        rw [h1] at hp
        cases hp
      rw [getNode_setNode_ne _ _ _ _ hne]
      exact h1
  · rfl

theorem c4_remove_deletes_subtree_witness :
    getNode (applyRemove [(idA, nodeW)] idA) idA = none :=
  c4_remove_deletes_subtree.1 [(idA, nodeW)] idA idA nodeW (by decide) (by decide)

/-- C7: the diff applier and the state path never fail on unknown
references — an Add whose parent is not stored is a silent no-op, and so
are an Update or Remove for an unknown id and a state notification for an
unknown id; every case leaves the Node Store unchanged. -/
theorem c7_unknown_references_noop :
    (∀ (s : Store) (id : TestId) (ex : ExpandState) (lab : String) (st : Option String),
        getNode s id.dropLast = none → applyAdd s id ex lab st = s) ∧
      (∀ (s : Store) (id : TestId) (o c : TestResultState),
        getNode s id = none → notifyState s id o c = s) ∧
      (∀ (s : Store) (id : TestId) (p : NodePatch),
        getNode s id = none → applyUpdate s id p = s) ∧
      (∀ (s : Store) (id : TestId), getNode s id = none → applyRemove s id = s) := by
  refine ⟨?_, ?_, ?_, ?_⟩
  · intro s id ex lab st h
    simp [applyAdd, h]
  · intro s id o c h
    simp [notifyState, h]
  · intro s id p h
    simp [applyUpdate, h]
  · intro s id h
    simp [applyRemove, h]

theorem c7_unknown_references_noop_witness :
    applyAdd [] ["x", "y"] .Expanded "x" none = [] ∧
      notifyState [] ["x"] .Failed .Failed = [] ∧
      applyUpdate [] ["x"] {} = [] ∧
      applyRemove [] ["x"] = [] :=
  ⟨c7_unknown_references_noop.1 [] ["x", "y"] .Expanded "x" none rfl,
    c7_unknown_references_noop.2.1 [] ["x"] .Failed .Failed rfl,
    c7_unknown_references_noop.2.2.1 [] ["x"] {} rfl,
    c7_unknown_references_noop.2.2.2 [] ["x"] rfl⟩

/-! ## Render frame lemmas -/

theorem renderNode_frame (s : Store) (id : TestId) (n n' : TestNode)
    (hn : getNode s id = some n)
    (hl : n'.label = n.label) (he : n'.expand = n.expand)
    (hcs : n'.computedState = n.computedState)
    (hx : ¬ n.expand = .Expanded) :
    ∀ (fuel : Nat) (j : TestId),
      renderNode (setNode s id n') fuel j = renderNode s fuel j := by
  intro fuel
  induction fuel with
  | zero =>
    intro j
    by_cases hj : j = id
    · subst hj
      simp only [renderNode]
      rw [getNode_setNode_self s j n n' hn, hn]
      simp [hl, hcs]
    · simp only [renderNode]
      rw [getNode_setNode_ne s id j n' hj]
  | succ f ih =>
    intro j
    have hfun : renderNode (setNode s id n') f = renderNode s f := funext ih
    by_cases hj : j = id
    · subst hj
      simp only [renderNode]
      rw [getNode_setNode_self s j n n' hn, hn]
      simp only [Option.map_some']
      rw [hl, hcs, he, if_neg hx, if_neg hx]
    · simp only [renderNode]
      rw [getNode_setNode_ne s id j n' hj, hfun]

theorem renderTop_frame (s : Store) (id : TestId) (n n' : TestNode)
    (hid : id ≠ []) (hn : getNode s id = some n)
    (hl : n'.label = n.label) (he : n'.expand = n.expand)
    (hcs : n'.computedState = n.computedState)
    (hx : ¬ n.expand = .Expanded) :
    renderTop (setNode s id n') = renderTop s := by
  have hroot : getNode (setNode s id n') [] = getNode s [] :=
    getNode_setNode_ne s id [] n' (Ne.symm hid)
  have hfun : renderNode (setNode s id n') = renderNode s :=
    funext (fun fuel => funext (renderNode_frame s id n n' hn hl he hcs hx fuel))
  unfold renderTop
  rw [hroot, hfun, length_setNode]

/-! ## Claims C3, C5 and C6 -/

/-- C3: an Update setting a node's `error` field synthesizes a leaf child
carrying the error text as its label, rendered before all real children of
an expanded node; the update introduces no new Node Store entry, so
`getElementByTestId` resolves exactly the identifiers it resolved before
(the synthetic child is never returned for any real serialized identifier);
in the fixture, setting, changing and clearing the error renders
`[bad, aa, ab]`, then `[badder, aa, ab]`, then `[aa, ab]` under `a`. -/
theorem c3_error_node_synthesis :
    (∀ (s : Store) (id : TestId) (n : TestNode) (e : Option String),
        getNode s id = some n →
        (applyUpdate s id { error := some e }).map (fun en => en.1) =
            s.map (fun en => en.1) ∧
          ∀ str : String,
            (getElementByTestId (applyUpdate s id { error := some e }) str).isSome =
              (getElementByTestId s str).isSome) ∧
      (∀ (s : Store) (id : TestId) (n : TestNode) (e : String) (fuel : Nat),
          getNode s id = some n → n.expand = .Expanded → n.error = some e →
          renderNode s (fuel + 1) id =
            some (.mk n.label n.computedState
              (.mk e .Unset [] :: n.children.filterMap (renderNode s fuel)))) ∧
      (renderTop c3err1 =
          [.mk "a" .Unset [.mk "bad" .Unset [], .mk "aa" .Unset [], .mk "ab" .Unset []],
            .mk "b" .Unset []] ∧
        renderTop c3err2 =
          [.mk "a" .Unset [.mk "badder" .Unset [], .mk "aa" .Unset [], .mk "ab" .Unset []],
            .mk "b" .Unset []] ∧
        renderTop c3err3 =
          [.mk "a" .Unset [.mk "aa" .Unset [], .mk "ab" .Unset []], .mk "b" .Unset []]) := by
  refine ⟨?_, ?_, rfl, rfl, rfl⟩
  · intro s id n e hn
    have hupd : applyUpdate s id { error := some e } =
        setNode s id (applyPatch n { error := some e }) := by
      simp [applyUpdate, hn, applyPatch]
    rw [hupd]
    refine ⟨keys_setNode s id _, fun str => ?_⟩
    unfold getElementByTestId
    exact getNode_setNode_isSome s id (parseTestId str) _
  · intro s id n e fuel hn hx he
    simp [renderNode, hn, hx, errorChildren, he]

theorem c3_error_node_synthesis_witness :
    renderNode [(idA, nodeErr)] 1 idA =
      some (.mk nodeErr.label nodeErr.computedState
        (.mk "bad" .Unset [] :: nodeErr.children.filterMap (renderNode [(idA, nodeErr)] 0))) :=
  c3_error_node_synthesis.2.1 [(idA, nodeErr)] idA nodeErr "bad" 0
    (by decide) (by decide) (by decide)

/-- C5: diff batches queued back to back are exposed in a single flush —
every flush invokes the renderer exactly once, on the store with all queued
operations applied; in the fixture, adding a second controller's test `c`
with child `ca` yields one transition to
`[{c, children: [ca]}, {root, children: [a, b]}]`. -/
theorem c5_single_flush_per_batch :
    (∀ (p : ProjState) (b1 b2 : List TestDiffOp),
        (flush (pushDiff (pushDiff p b1) b2)).1 =
            [renderTop (applyBatch p.store (p.pending ++ b1 ++ b2))] ∧
          (flush (pushDiff (pushDiff p b1) b2)).1.length = 1) ∧
      (flush (pushDiff ⟨store0, []⟩
          [ .add idC .Expanded "c" none, .add idCA .NotExpandable "ca" none ])).1 =
        [[.mk "c" .Unset [.mk "ca" .Unset []],
          .mk "root" .Unset [.mk "a" .Unset [], .mk "b" .Unset []]]] := by
  refine ⟨fun p b1 b2 => ⟨?_, rfl⟩, rfl⟩
  simp [flush, pushDiff, List.append_assoc]

/-- C6: changes to a node whose subtree is not visible produce no change in
the rendered tree — an error update on a non-expanded node leaves the
render unchanged — and once the node is expanded the next render shows the
full up-to-date subtree in one pass, as in the fixture where `a` receives
an error while collapsed (render unchanged) and renders
`[bad, aa, ab]` after expansion. -/
theorem c6_invisible_changes_not_rendered :
    (∀ (s : Store) (id : TestId) (n : TestNode) (e : Option String),
        id ≠ [] → getNode s id = some n → ¬ n.expand = .Expanded →
        renderTop (applyUpdate s id { error := some e }) = renderTop s) ∧
      (renderTop c6hidden = renderTop store0 ∧
        renderTop (setExpand c6hidden idA .Expanded) =
          [.mk "a" .Unset [.mk "bad" .Unset [], .mk "aa" .Unset [], .mk "ab" .Unset []],
            .mk "b" .Unset []]) := by
  have hhid : renderTop c6hidden = [.mk "a" .Unset [], .mk "b" .Unset []] := by rfl
  have hst0 : renderTop store0 = [.mk "a" .Unset [], .mk "b" .Unset []] := by rfl
  refine ⟨?_, hhid.trans hst0.symm, rfl⟩
  intro s id n e hid hn hx
  have hupd : applyUpdate s id { error := some e } =
      setNode s id (applyPatch n { error := some e }) := by
    simp [applyUpdate, hn, applyPatch]
  rw [hupd]
  exact renderTop_frame s id n _ hid hn (by simp [applyPatch]) (by simp [applyPatch])
    (by simp [applyPatch]) hx

theorem c6_invisible_changes_not_rendered_witness :
    renderTop (applyUpdate store0 idA { error := some (some "w") }) = renderTop store0 :=
  c6_invisible_changes_not_rendered.1 store0 idA nodeA (some "w")
    (by decide) (by decide) (by decide)

/-! ## Claims C8 and C10 -/

theorem isCollapsedLoop_eq_walk :
    ∀ (path : List String) (node : SerializedCollapse),
      isCollapsedLoop node path =
        Option.bind (collapseWalk node path) SerializedCollapse.collapsedVal := by
  intro path
  induction path with
  | nil => intro node; rfl
  | cons p rest ih =>
    intro node
    simp only [isCollapsedLoop, collapseWalk]
    cases childLookup node p with
    | none => rfl
    | some c => exact ih c

/-- C8: `isCollapsedInSerializedTestTree`, on a `TestId` or on a string
(which it parses), walks the id's path segments through the nested children
maps, returns `undefined` as soon as any segment is absent (including a
missing children map), and otherwise returns the reached node's `collapsed`
value, which may itself be `undefined`. -/
theorem c8_collapsed_lookup_is_path_walk :
    (∀ (ser : SerializedCollapse) (id : TestId ⊕ String),
        isCollapsedInSerializedTestTree ser id =
          Option.bind (collapseWalk ser (inputPath id)) SerializedCollapse.collapsedVal) ∧
      ∀ s : String, inputPath (.inr s) = parseTestId s :=
  ⟨fun ser id => isCollapsedLoop_eq_walk (inputPath id) ser, fun _ => rfl⟩

theorem hmGet_hmSet_self :
    ∀ (hm : HostMap) (host : String) (pm v : PortMap), hmGet hm host = some pm →
      hmGet (hmSet hm host v) host = some v := by
  intro hm host pm v
  induction hm with
  | nil => intro h; exact absurd h (by simp [hmGet])
  | cons e rest ih =>
    obtain ⟨k, w⟩ := e
    intro h
    simp only [hmGet] at h
    simp only [hmSet, List.map_cons]
    by_cases hk : k = host
    · rw [if_pos hk]
      simp [hmGet]
    · rw [if_neg hk] at h
      rw [if_neg hk]
      simp only [hmGet, if_neg hk]
      simpa [hmSet] using ih h

theorem hmGet_hmSet_ne :
    ∀ (hm : HostMap) (host h : String) (v : PortMap), h ≠ host →
      hmGet (hmSet hm host v) h = hmGet hm h := by
  intro hm host h v hne
  induction hm with
  | nil => rfl
  | cons e rest ih =>
    obtain ⟨k, w⟩ := e
    simp only [hmSet, List.map_cons]
    by_cases hk : k = host
    · rw [if_pos hk]
      simp only [hmGet]
      rw [if_neg (fun hh : host = h => hne hh.symm), if_neg (fun hh : k = h => hne (hk ▸ hh).symm)]
      simpa [hmSet] using ih
    · rw [if_neg hk]
      simp only [hmGet]
      by_cases hkh : k = h
      · rw [if_pos hkh, if_pos hkh]
      · rw [if_neg hkh, if_neg hkh]
        simpa [hmSet] using ih

theorem pmGet_pmDelete_self :
    ∀ (pm : PortMap) (port : Nat), pmGet (pmDelete pm port) port = none := by
  intro pm port
  induction pm with
  | nil => rfl
  | cons e rest ih =>
    obtain ⟨p, t⟩ := e
    simp only [pmDelete, List.filter_cons] at ih ⊢
    by_cases hp : p = port
    · simp [hp, ih]
    · have hb : (!decide (p = port)) = true := by simp [hp]
      rw [if_pos hb]
      simp only [pmGet, if_neg hp]
      exact ih

theorem pmGet_pmDelete_ne :
    ∀ (pm : PortMap) (port q : Nat), q ≠ port →
      pmGet (pmDelete pm port) q = pmGet pm q := by
  intro pm port q hne
  induction pm with
  | nil => rfl
  | cons e rest ih =>
    obtain ⟨p, t⟩ := e
    simp only [pmDelete, List.filter_cons] at ih ⊢
    by_cases hp : p = port
    · have hb : (!decide (p = port)) = false := by simp [hp]
      rw [hb, if_neg (by simp), ih]
      simp only [pmGet]
      rw [if_neg (fun hq : p = q => hne (hp ▸ hq).symm)]
    · have hb : (!decide (p = port)) = true := by simp [hp]
      rw [if_pos hb]
      simp only [pmGet]
      by_cases hpq : p = q
      · rw [if_pos hpq, if_pos hpq]
      · rw [if_neg hpq, if_neg hpq]
        exact ih

/-- C10: `$closeTunnel` disposes and deletes exactly the tunnel stored
under the requested host and port when one exists — every other host's map
and every other port of the same host is untouched — and is a no-op
returning without error when the host or the port is not registered. -/
theorem c10_close_tunnel_disposes_exactly_one :
    (∀ (hm : HostMap) (host : String) (port : Nat),
        hmGet hm host = none → closeTunnel hm host port = (hm, [])) ∧
      (∀ (hm : HostMap) (host : String) (port : Nat) (pm : PortMap),
        hmGet hm host = some pm → pmGet pm port = none →
        closeTunnel hm host port = (hm, [])) ∧
      (∀ (hm : HostMap) (host : String) (port : Nat) (pm : PortMap) (t : TunnelRec),
        hmGet hm host = some pm → pmGet pm port = some t →
        closeTunnel hm host port = (hmSet hm host (pmDelete pm port), [t]) ∧
          hmGet (hmSet hm host (pmDelete pm port)) host = some (pmDelete pm port) ∧
          (∀ h : String, h ≠ host →
            hmGet (hmSet hm host (pmDelete pm port)) h = hmGet hm h) ∧
          pmGet (pmDelete pm port) port = none ∧
          (∀ q : Nat, q ≠ port → pmGet (pmDelete pm port) q = pmGet pm q)) := by
  refine ⟨?_, ?_, ?_⟩
  · intro hm host port h
    simp [closeTunnel, h]
  · intro hm host port pm hh hp
    simp [closeTunnel, hh, hp]
  · intro hm host port pm t hh hp
    refine ⟨by simp [closeTunnel, hh, hp], hmGet_hmSet_self hm host pm _ hh,
      fun h hne => hmGet_hmSet_ne hm host h _ hne,
      pmGet_pmDelete_self pm port,
      fun q hne => pmGet_pmDelete_ne pm port q hne⟩

theorem c10_close_tunnel_disposes_exactly_one_witness :
    closeTunnel hmW "localhost" 443 =
      (hmSet hmW "localhost" (pmDelete [(80, ⟨1⟩), (443, ⟨2⟩)] 443), [⟨2⟩]) :=
  (c10_close_tunnel_disposes_exactly_one.2.2 hmW "localhost" 443
    [(80, ⟨1⟩), (443, ⟨2⟩)] ⟨2⟩ (by decide) (by decide)).1

/-! ## JavaScript Map lemmas -/

theorem mem_insertJsMap {e : Option Nat × PortEntry}
    (m : List (Option Nat × PortEntry)) (k : Option Nat) (v : PortEntry)
    (h : e ∈ insertJsMap m k v) : e ∈ m ∨ e = (k, v) := by
  unfold insertJsMap at h
  by_cases ha : m.any (fun e => decide (e.1 = k)) = true
  · rw [if_pos ha] at h
    rcases List.mem_map.mp h with ⟨x, hx, rfl⟩
    by_cases hxk : x.1 = k
    · right
      rw [if_pos hxk]
    · left
      rw [if_neg hxk]
      exact hx
  · rw [if_neg ha] at h
    rcases List.mem_append.mp h with hm | hs
    · exact .inl hm
    · right
      simpa using hs

theorem mem_foldl_insertJsMap :
    ∀ (pairs : List (Option Nat × PortEntry)) (m : List (Option Nat × PortEntry))
      (e : Option Nat × PortEntry),
      e ∈ pairs.foldl (fun m p => insertJsMap m p.1 p.2) m → e ∈ m ∨ e ∈ pairs := by
  intro pairs
  induction pairs with
  | nil => intro m e h; exact .inl h
  | cons p ps ih =>
    intro m e h
    rcases ih (insertJsMap m p.1 p.2) e h with hm | hp
    · rcases mem_insertJsMap _ _ _ hm with hm2 | he
      · exact .inl hm2
      · right
        simp [he]
    · right
      simp [hp]

theorem map_fst_replace (k : Option Nat) (v : PortEntry) :
    ∀ m : List (Option Nat × PortEntry),
      (m.map (fun e => if e.1 = k then (k, v) else e)).map (fun e => e.1) =
        m.map (fun e => e.1) := by
  intro m
  induction m with
  | nil => rfl
  | cons x rest ih =>
    simp only [List.map_cons, ih]
    by_cases hx : x.1 = k
    · rw [if_pos hx, hx]
    · rw [if_neg hx]

theorem keysJsMap_nodup_insert (m : List (Option Nat × PortEntry)) (k : Option Nat)
    (v : PortEntry) (h : (m.map (fun e => e.1)).Nodup) :
    ((insertJsMap m k v).map (fun e => e.1)).Nodup := by
  unfold insertJsMap
  by_cases ha : m.any (fun e => decide (e.1 = k)) = true
  · rw [if_pos ha, map_fst_replace k v m]
    exact h
  · rw [if_neg ha, List.map_append]
    have hk : k ∉ m.map (fun e => e.1) := by
      intro hmem
      rcases List.mem_map.mp hmem with ⟨x, hx, hfst⟩
      exact ha (List.any_eq_true.mpr ⟨x, hx, by simp [hfst]⟩)
    simp only [List.map_cons, List.map_nil]
    rw [List.nodup_append]
    exact ⟨h, List.nodup_singleton k, by
      intro a hma hsa
      simp only [List.mem_singleton] at hsa
      exact hk (hsa ▸ hma)⟩

theorem keysJsMap_nodup_fold :
    ∀ (pairs : List (Option Nat × PortEntry)) (m : List (Option Nat × PortEntry)),
      (m.map (fun e => e.1)).Nodup →
      ((pairs.foldl (fun m p => insertJsMap m p.1 p.2) m).map (fun e => e.1)).Nodup := by
  intro pairs
  induction pairs with
  | nil => intro m h; exact h
  | cons p ps ih =>
    intro m h
    exact ih (insertJsMap m p.1 p.2) (keysJsMap_nodup_insert m p.1 p.2 h)

theorem lookupJsMap_map_replace_ne (k0 k : Option Nat) (v0 : PortEntry) (hne : k ≠ k0) :
    ∀ m : List (Option Nat × PortEntry),
      lookupJsMap (m.map (fun e => if e.1 = k0 then (k0, v0) else e)) k =
        lookupJsMap m k := by
  intro m
  induction m with
  | nil => rfl
  | cons x rest ih =>
    obtain ⟨x1, x2⟩ := x
    simp only [List.map_cons]
    by_cases hx : x1 = k0
    · rw [if_pos hx]
      simp only [lookupJsMap]
      rw [if_neg (fun h : k0 = k => hne h.symm), if_neg (fun h : x1 = k => hne (h.symm.trans hx))]
      exact ih
    · rw [if_neg hx]
      simp only [lookupJsMap]
      by_cases hxk : x1 = k
      · rw [if_pos hxk, if_pos hxk]
      · rw [if_neg hxk, if_neg hxk]
        exact ih

theorem lookupJsMap_map_replace_self (k0 : Option Nat) (v0 : PortEntry) :
    ∀ m : List (Option Nat × PortEntry), m.any (fun e => decide (e.1 = k0)) = true →
      lookupJsMap (m.map (fun e => if e.1 = k0 then (k0, v0) else e)) k0 = some v0 := by
  intro m
  induction m with
  | nil => intro h; simp at h
  | cons x rest ih =>
    intro h
    obtain ⟨x1, x2⟩ := x
    simp only [List.map_cons]
    by_cases hx : x1 = k0
    · rw [if_pos hx]
      simp [lookupJsMap]
    · rw [if_neg hx]
      simp only [lookupJsMap]
      rw [if_neg hx]
      refine ih ?_
      simpa [List.any_cons, hx] using h

theorem lookupJsMap_none_of_not_any :
    ∀ (m : List (Option Nat × PortEntry)) (k0 : Option Nat),
      ¬ (m.any (fun e => decide (e.1 = k0)) = true) → lookupJsMap m k0 = none := by
  intro m k0
  induction m with
  | nil => intro _; rfl
  | cons x rest ih =>
    obtain ⟨x1, x2⟩ := x
    intro h
    simp only [List.any_cons, Bool.or_eq_true, decide_eq_true_eq] at h
    push_neg at h
    simp only [lookupJsMap]
    rw [if_neg h.1]
    exact ih (by simpa using h.2)

theorem lookupJsMap_append :
    ∀ (m1 m2 : List (Option Nat × PortEntry)) (k : Option Nat),
      lookupJsMap (m1 ++ m2) k = optOr (lookupJsMap m1 k) (lookupJsMap m2 k) := by
  intro m1 m2 k
  induction m1 with
  | nil => rfl
  | cons x rest ih =>
    obtain ⟨x1, x2⟩ := x
    simp only [List.cons_append, lookupJsMap]
    by_cases hx : x1 = k
    · rw [if_pos hx, if_pos hx]
      rfl
    · rw [if_neg hx, if_neg hx]
      exact ih

theorem lookupJsMap_insert (m : List (Option Nat × PortEntry)) (k0 k : Option Nat)
    (v0 : PortEntry) :
    lookupJsMap (insertJsMap m k0 v0) k = if k0 = k then some v0 else lookupJsMap m k := by
  unfold insertJsMap
  by_cases ha : m.any (fun e => decide (e.1 = k0)) = true
  · rw [if_pos ha]
    by_cases hk : k0 = k
    · subst hk
      rw [if_pos rfl, lookupJsMap_map_replace_self k0 v0 m ha]
    · rw [if_neg hk, lookupJsMap_map_replace_ne k0 k v0 (fun h => hk h.symm) m]
  · rw [if_neg ha, lookupJsMap_append m [(k0, v0)] k]
    by_cases hk : k0 = k
    · subst hk
      rw [if_pos rfl, lookupJsMap_none_of_not_any m k0 ha]
      simp [optOr, lookupJsMap]
    · rw [if_neg hk]
      have hn : lookupJsMap [(k0, v0)] k = none := by simp [lookupJsMap, hk]
      rw [hn]
      cases lookupJsMap m k <;> rfl

theorem lookupJsMap_foldl :
    ∀ (pairs : List (Option Nat × PortEntry)) (m : List (Option Nat × PortEntry))
      (k : Option Nat),
      lookupJsMap (pairs.foldl (fun m p => insertJsMap m p.1 p.2) m) k =
        optOr (lookupJsMap pairs.reverse k) (lookupJsMap m k) := by
  intro pairs
  induction pairs with
  | nil => intro m k; rfl
  | cons p ps ih =>
    intro m k
    obtain ⟨pk, pv⟩ := p
    simp only [List.foldl_cons, List.reverse_cons]
    rw [ih (insertJsMap m pk pv) k, lookupJsMap_insert m pk k pv,
      lookupJsMap_append ps.reverse [(pk, pv)] k]
    by_cases hk : pk = k
    · subst hk
      rw [if_pos rfl]
      have hs : lookupJsMap [(pk, pv)] pk = some pv := by simp [lookupJsMap]
      rw [hs]
      cases lookupJsMap ps.reverse pk <;> rfl
    · rw [if_neg hk]
      have hn : lookupJsMap [(pk, pv)] k = none := by simp [lookupJsMap, hk]
      rw [hn]
      cases lookupJsMap ps.reverse k <;> rfl

theorem lookupJsMap_build (pairs : List (Option Nat × PortEntry)) (k : Option Nat) :
    lookupJsMap (buildJsMap pairs) k = lookupJsMap pairs.reverse k := by
  unfold buildJsMap
  rw [lookupJsMap_foldl pairs [] k]
  cases lookupJsMap pairs.reverse k <;> rfl

theorem port_eq_key_of_mem_build (entries : List PortEntry) (e : Option Nat × PortEntry)
    (h : e ∈ buildJsMap (entries.map (fun p => (p.port, p)))) : e.2.port = e.1 := by
  rcases mem_foldl_insertJsMap _ [] e h with h0 | hp
  · cases h0
  · rcases List.mem_map.mp hp with ⟨p, _, rfl⟩
    rfl

theorem map_port_eq_map_fst :
    ∀ m : List (Option Nat × PortEntry), (∀ e ∈ m, e.2.port = e.1) →
      (m.map (fun e => e.2)).map PortEntry.port = m.map (fun e => e.1) := by
  intro m
  induction m with
  | nil => intro _; rfl
  | cons x rest ih =>
    intro h
    simp only [List.map_cons]
    rw [show PortEntry.port x.2 = x.1 from h x (by simp),
      ih (fun e he => h e (by simp [he]))]

theorem findByPort_map_values :
    ∀ (m : List (Option Nat × PortEntry)) (k : Option Nat), (∀ e ∈ m, e.2.port = e.1) →
      findByPort (m.map (fun e => e.2)) k = lookupJsMap m k := by
  intro m
  induction m with
  | nil => intro k _; rfl
  | cons x rest ih =>
    intro k h
    obtain ⟨x1, x2⟩ := x
    have hx : x2.port = x1 := h (x1, x2) (by simp)
    simp only [List.map_cons, findByPort, lookupJsMap]
    by_cases hk : x1 = k
    · rw [if_pos (hx.trans hk), if_pos hk]
    · rw [if_neg (fun hc : x2.port = k => hk (hx.symm.trans hc)), if_neg hk]
      exact ih k (fun e he => h e (by simp [he]))

theorem lookupJsMap_pairs_eq_findByPort :
    ∀ (l : List PortEntry) (k : Option Nat),
      lookupJsMap (l.map (fun p => (p.port, p))) k = findByPort l k := by
  intro l
  induction l with
  | nil => intro k; rfl
  | cons p ps ih =>
    intro k
    simp only [List.map_cons, lookupJsMap, findByPort]
    by_cases hk : p.port = k
    · rw [if_pos hk, if_pos hk]
    · rw [if_neg hk, if_neg hk]
      exact ih k

/-- C9: `loadListeningPorts` returns only entries obtained from rows whose
`st` field equals `0A`, each entry carrying the base-16 parse of the second
colon-separated component of `local_address` as its port and the base-10
parse of `inode` as its socket (via `entryOfRow`); the result holds at most
one entry per port value, and the surviving entry for a port is the one of
the last matching row. -/
theorem c9_listening_ports_filter_parse_dedup :
    ∀ stdouts : List String,
      (∀ p ∈ loadListeningPorts stdouts,
          ∃ r ∈ tableOf stdouts,
            rowGet r ("st".toList) = some ("0A".toList) ∧ p = entryOfRow r) ∧
        ((loadListeningPorts stdouts).map PortEntry.port).Nodup ∧
        ∀ k : Option Nat,
          findByPort (loadListeningPorts stdouts) k =
            findByPort ((listeningRows stdouts).map entryOfRow).reverse k := by
  intro stdouts
  refine ⟨?_, ?_, ?_⟩
  · intro p hp
    simp only [loadListeningPorts] at hp
    rcases List.mem_map.mp hp with ⟨e, he, rfl⟩
    rcases mem_foldl_insertJsMap _ [] e he with h0 | hpair
    · cases h0
    · rcases List.mem_map.mp hpair with ⟨q, hq, rfl⟩
      rcases List.mem_map.mp hq with ⟨r, hr, rfl⟩
      rcases List.mem_filter.mp hr with ⟨hrt, hst⟩
      exact ⟨r, hrt, of_decide_eq_true hst, rfl⟩
  · simp only [loadListeningPorts]
    rw [map_port_eq_map_fst _ (fun e he => port_eq_key_of_mem_build _ e he)]
    exact keysJsMap_nodup_fold _ [] (by simp)
  · intro k
    simp only [loadListeningPorts]
    rw [findByPort_map_values _ k (fun e he => port_eq_key_of_mem_build _ e he),
      lookupJsMap_build, ← List.map_reverse, lookupJsMap_pairs_eq_findByPort]

theorem c9_listening_ports_filter_parse_dedup_witness :
    ∃ r ∈ tableOf [sampleTcp],
      rowGet r ("st".toList) = some ("0A".toList) ∧ sampleEntry = entryOfRow r :=
  (c9_listening_ports_filter_parse_dedup [sampleTcp]).1 sampleEntry (by decide)
